import Mathlib

/-!
Shallow embedding of the activation-steering engine of `src/aig`
(`steering.py`, `integrations/casteer_integration.py`,
`integrations/hspace_integration.py`).

Modelling decisions:
* numpy activation tensors `[batch, ..., hidden_dim]` are modelled as a list of
  positions (the leading axes flattened), each position holding the trailing-axis
  row: `Tensor := List (List ℝ)`.  Every operation the code performs on an
  activation tensor (elementwise arithmetic, `axis=-1` reductions with
  `keepdims=True`, trailing-axis broadcasting) acts positionwise, so this view is
  exact.  A rank-1 numpy array is a single position.
* concept-vector payloads are rank-1 or rank-2 arrays (`NArr`).
* numpy exceptions (broadcast failures) are modelled with `Except String`.
* floating point is modelled by exact real arithmetic.
-/

noncomputable section

namespace AIG

/-- an activation tensor: positions (flattened leading axes) of trailing-axis rows. -/
abbrev Tensor := List (List ℝ)

/-- a numpy array of rank 1 or rank 2, as stored in `ConceptVector.vector`. -/
inductive NArr where
  | one (v : List ℝ)
  | two (m : List (List ℝ))

/-- all entries of the array, flattened (as `np.linalg.norm` without `axis` sees them). -/
def NArr.flat : NArr → List ℝ
  | .one v => v
  | .two m => m.flatten

/-- shape[-1] of the array. -/
def NArr.lastDim : NArr → Nat
  | .one v => v.length
  | .two m => (m.headD []).length

/-- apply a scalar function entrywise. -/
def NArr.emap (f : ℝ → ℝ) : NArr → NArr
  | .one v => .one (v.map f)
  | .two m => .two (m.map (List.map f))

/-- view the array as a `Tensor`; a rank-1 array becomes the single position it
broadcasts from, matching numpy's right-aligned broadcasting. -/
def NArr.asTensor : NArr → Tensor
  | .one v => [v]
  | .two m => m

/-- last-axis L2 norm of one position (row). -/
def rowNorm (r : List ℝ) : ℝ := Real.sqrt ((r.map (fun a => a ^ 2)).sum)

/-- `np.linalg.norm(a)` with no axis: flatten, then L2 norm. -/
def NArr.fullNorm (a : NArr) : ℝ := rowNorm a.flat

/-- `np.linalg.norm(t, axis=-1, keepdims=True)`. -/
def normKeep (t : Tensor) : Tensor := t.map (fun r => [rowNorm r])

/-- `np.sum(t, axis=-1, keepdims=True)`. -/
def sumKeep (t : Tensor) : Tensor := t.map (fun r => [r.sum])

/-- scalar times tensor. -/
def tsmul (c : ℝ) (t : Tensor) : Tensor := t.map (List.map (fun a => c * a))

/-- tensor plus scalar, entrywise. -/
def tadds (c : ℝ) (t : Tensor) : Tensor := t.map (List.map (fun a => a + c))

/-- shape[-1] of an activation tensor. -/
def tLastDim (t : Tensor) : Nat := (t.headD []).length

/-- numpy elementwise binary operation on two rows, broadcasting a length-1 row
against the other; incompatible lengths raise. -/
def rowBop (f : ℝ → ℝ → ℝ) (r s : List ℝ) : Except String (List ℝ) :=
  if r.length = s.length then .ok (List.zipWith f r s)
  else if r.length = 1 then .ok (s.map (f (r.headD 0)))
  else if s.length = 1 then .ok (r.map (fun a => f a (s.headD 0)))
  else .error "operands could not be broadcast together"

/-- rowwise application of `rowBop` to two equally long lists of positions. -/
def seqRows (f : ℝ → ℝ → ℝ) : Tensor → Tensor → Except String Tensor
  | [], [] => .ok []
  | r :: a, s :: b =>
      (rowBop f r s).bind fun rs => (seqRows f a b).bind fun t => .ok (rs :: t)
  | _, _ => .error "operands could not be broadcast together"

/-- numpy elementwise binary operation on two tensors: broadcast a single
position against the other tensor's positions, else require equal counts. -/
def tbop (f : ℝ → ℝ → ℝ) (a b : Tensor) : Except String Tensor :=
  if a.length = b.length then seqRows f a b
  else if a.length = 1 then seqRows f (List.replicate b.length (a.headD [])) b
  else if b.length = 1 then seqRows f a (List.replicate a.length (b.headD []))
  else .error "operands could not be broadcast together"

/-- `np.broadcast_to(v, shape)` for a rank-1 `v` and a target activation shape of
`n` positions with trailing dimension `d`: exact trailing match replicates the
row, a length-1 `v` fills the whole shape, anything else raises. -/
def broadcastTo1 (v : List ℝ) (n d : Nat) : Except String Tensor :=
  if v.length = d then .ok (List.replicate n v)
  else if v.length = 1 then .ok (List.replicate n (List.replicate d (v.headD 0)))
  else .error "cannot broadcast a 1-D vector to an incompatible shape"

/-- the three steering strategies of `SteeringStrategy`. -/
inductive SteeringStrategy where
  | additive
  | projection
  | hspace
deriving DecidableEq

/-- `SteeringStrategy(s)`: enum conversion from the value string, `none` models
the `ValueError` raised on an unknown value. -/
def SteeringStrategy.ofValue (s : String) : Option SteeringStrategy :=
  if s = "additive" then some .additive
  else if s = "projection" then some .projection
  else if s = "hspace" then some .hspace
  else none

/-- the `ConceptVector` dataclass. -/
structure ConceptVector where
  name : String
  vector : NArr
  strength : ℝ
  metadata : List (String × String)

/-- a Python dict keyed by name, with insertion order kept. -/
abbrev ConceptDict := List (String × ConceptVector)

/-- Python dict assignment `d[k] = v`: replace in place if present, else append. -/
def dictInsert (k : String) (v : ConceptVector) (d : ConceptDict) : ConceptDict :=
  if (d.lookup k).isSome then d.map (fun p => if p.1 = k then (k, v) else p)
  else d ++ [(k, v)]

/-- the `SteeringController` state. -/
structure SteeringController where
  strategy : SteeringStrategy
  alpha : ℝ
  beta : ℝ
  normalize : Bool
  concepts : ConceptDict
  active_concepts : List String

/-- `SteeringController.__init__`: the enum conversion of `default_strategy`
raises `ValueError` on an unknown string, modelled as `Except.error`. -/
def SteeringController.init (default_strategy : String) (alpha beta : ℝ)
    (normalize : Bool) : Except String SteeringController :=
  match SteeringStrategy.ofValue default_strategy with
  | none => .error "ValueError: not a valid SteeringStrategy"
  | some st => .ok ⟨st, alpha, beta, normalize, [], []⟩

/-- normalization performed by `SteeringController.add_concept`: divide by the
full L2 norm when it is positive, otherwise keep the vector unchanged. -/
def unitNormalize (a : NArr) : NArr :=
  if a.fullNorm > 0 then a.emap (fun x => x / a.fullNorm) else a

/-- `SteeringController.add_concept`. -/
def SteeringController.add_concept (c : SteeringController)
    (concept : ConceptVector) : SteeringController :=
  let concept2 : ConceptVector :=
    ⟨concept.name, unitNormalize concept.vector, concept.strength, concept.metadata⟩
  ⟨c.strategy, c.alpha, c.beta, c.normalize,
    dictInsert concept2.name concept2 c.concepts, c.active_concepts⟩

/-- write a new strength into the dict entry of `name` (Python mutates the
`ConceptVector` object in place). -/
def setStrength (d : ConceptDict) (name : String) (s : ℝ) : ConceptDict :=
  d.map (fun p => if p.1 = name then (p.1, ⟨p.2.name, p.2.vector, s, p.2.metadata⟩) else p)

/-- `SteeringController.activate_concept`. -/
def SteeringController.activate_concept (c : SteeringController) (name : String)
    (strength : Option ℝ) : SteeringController :=
  if (c.concepts.lookup name).isSome then
    let d := match strength with
      | some s => setStrength c.concepts name s
      | none => c.concepts
    if name ∈ c.active_concepts then
      ⟨c.strategy, c.alpha, c.beta, c.normalize, d, c.active_concepts⟩
    else
      ⟨c.strategy, c.alpha, c.beta, c.normalize, d, c.active_concepts ++ [name]⟩
  else c

/-- the gain applied to a concept: `alpha*s` for `s >= 0`, `-beta*abs(s)` otherwise. -/
def gainOf (alpha beta s : ℝ) : ℝ := if s ≥ 0 then alpha * s else -(beta * |s|)

/-- the per-concept loop body of `SteeringController.steer`: look the name up
(skip silently if absent), reconcile shapes (broadcast a mismatched 1-D vector,
skip a mismatched higher-rank vector), then apply the strategy's transform. -/
def stepConcept (c : SteeringController) (activations : Tensor)
    (layer_name : String) (steered : Tensor) (name : String) :
    Except String Tensor :=
  match c.concepts.lookup name with
  | none => .ok steered
  | some concept =>
    let strength := concept.strength
    let recon : Except String (Option Tensor) :=
      if concept.vector.lastDim ≠ tLastDim activations then
        match concept.vector with
        | .one v =>
            (broadcastTo1 v activations.length (tLastDim activations)).bind
              fun t => .ok (some t)
        | .two _ => .ok none
      else .ok (some concept.vector.asTensor)
    recon.bind fun ov =>
      match ov with
      | none => .ok steered
      | some vector =>
        match c.strategy with
        | .additive =>
            tbop (· + ·) steered (tsmul (gainOf c.alpha c.beta strength) vector)
        | .projection =>
            (tbop (· * ·) steered vector).bind fun prod =>
            (tbop (· * ·) (sumKeep prod) vector).bind fun proj =>
            (tbop (· - ·) steered proj).bind fun sub =>
            tbop (· + ·) sub (tsmul (c.alpha * strength) vector)
        | .hspace =>
            if layer_name = "mid" then
              tbop (· + ·) steered (tsmul (c.alpha * strength) vector)
            else .ok steered

/-- the fold of `steer` over the active-concept list. -/
def SteeringController.steerLoop (c : SteeringController) (activations : Tensor)
    (layer_name : String) : Except String Tensor :=
  c.active_concepts.foldlM (stepConcept c activations layer_name) activations

/-- the final renormalization of `steer`: divide by `new_norm + 1e-8` and
multiply by the recorded `original_norm`. -/
def renormalize (original_norm steered : Tensor) : Except String Tensor :=
  (tbop (· / ·) steered (tadds 1e-8 (normKeep steered))).bind fun divd =>
  tbop (· * ·) divd original_norm

/-- `SteeringController.steer`. -/
def SteeringController.steer (c : SteeringController) (activations : Tensor)
    (layer_name : String) (timestep : Int) : Except String Tensor :=
  if c.active_concepts = [] then .ok activations
  else
    let original_norm := normKeep activations
    (c.steerLoop activations layer_name).bind fun steered =>
      if c.normalize then renormalize original_norm steered else .ok steered

/-- the on-disk store seen by `os.path.exists` / `pickle`: paths mapped to the
pickled name-to-ConceptVector mapping. -/
abbrev FileSystem := List (String × ConceptDict)

/-- `os.path.exists`. -/
def pathExists (fs : FileSystem) (p : String) : Bool := (fs.lookup p).isSome

/-- the `ConceptLibrary` state. -/
structure ConceptLibrary where
  path : Option String
  concepts : ConceptDict

/-- `ConceptLibrary.load`: Python's `if self.path and os.path.exists(self.path)`
(a `None` or empty path is falsy) guards the read; otherwise nothing happens. -/
def ConceptLibrary.load (lib : ConceptLibrary) (fs : FileSystem) : ConceptLibrary :=
  match lib.path with
  | none => lib
  | some p =>
    if p = "" then lib
    else
      match fs.lookup p with
      | some blob => ⟨lib.path, blob⟩
      | none => lib

/-- `ConceptLibrary.__init__`: start empty, then load when the path is truthy
and exists. -/
def ConceptLibrary.init (path : Option String) (fs : FileSystem) : ConceptLibrary :=
  let lib : ConceptLibrary := ⟨path, []⟩
  match path with
  | none => lib
  | some p => if p ≠ "" ∧ pathExists fs p then lib.load fs else lib

/-- `ConceptLibrary.add_concept`: plain dict assignment, no normalization. -/
def ConceptLibrary.add_concept (lib : ConceptLibrary) (concept : ConceptVector) :
    ConceptLibrary :=
  ⟨lib.path, dictInsert concept.name concept lib.concepts⟩

/-- `ConceptLibrary.get_concept`. -/
def ConceptLibrary.get_concept (lib : ConceptLibrary) (name : String) :
    Option ConceptVector :=
  lib.concepts.lookup name

/-- the `CASteerConfig` dataclass (after `__post_init__`). -/
structure CASteerConfig where
  alpha : ℝ
  beta : ℝ
  normalize : Bool
  apply_to_layers : List String
  timestep_range : Int × Int

/-- the `CASteerApplier` state: a dict of named `(vector, strength)` pairs in
insertion order and a global on/off flag. -/
structure CASteerApplier where
  config : CASteerConfig
  steering_vectors : List (String × NArr × ℝ)
  active : Bool

/-- `CASteerApplier.apply_steering`. -/
def CASteerApplier.apply_steering (ap : CASteerApplier) (activations : Tensor)
    (layer_name : String) (timestep : Int) : Except String Tensor :=
  if ap.active = false ∨ layer_name ∉ ap.config.apply_to_layers then .ok activations
  else if ¬(ap.config.timestep_range.1 ≤ timestep ∧
      timestep ≤ ap.config.timestep_range.2) then .ok activations
  else
    let original_norm := normKeep activations
    (ap.steering_vectors.foldlM (fun steered nv =>
        if nv.2.1.lastDim ≠ tLastDim activations then .ok steered
        else
          tbop (· + ·) steered
            (tsmul (gainOf ap.config.alpha ap.config.beta nv.2.2) nv.2.1.asTensor))
      activations).bind fun steered =>
    if ap.config.normalize then renormalize original_norm steered else .ok steered

/-- the `HSpaceConfig` dataclass. -/
structure HSpaceConfig where
  edit_strength : ℝ
  use_asyrp : Bool
  timestep_range : Int × Int

/-- the `HSpaceEditor` state. -/
structure HSpaceEditor where
  config : HSpaceConfig
  edit_directions : List (String × NArr × ℝ)
  active_edits : List String

/-- `HSpaceEditor.apply_edit`. -/
def HSpaceEditor.apply_edit (ed : HSpaceEditor) (h : Tensor) (timestep : Int) :
    Except String Tensor :=
  if ed.active_edits = [] then .ok h
  else if ¬(ed.config.timestep_range.1 ≤ timestep ∧
      timestep ≤ ed.config.timestep_range.2) then .ok h
  else
    ed.active_edits.foldlM (fun h_edited name =>
        match ed.edit_directions.lookup name with
        | none => .ok h_edited
        | some dv =>
          if dv.1.lastDim ≠ tLastDim h then .ok h_edited
          else tbop (· + ·) h_edited (tsmul (ed.config.edit_strength * dv.2) dv.1.asTensor))
      h

/-- trailing-axis dot product of one position with a direction row. -/
def dot (r v : List ℝ) : ℝ := (List.zipWith (· * ·) r v).sum

/-- one named concept's contribution to the running additive offset: its
gain-scaled rank-1 vector, or nothing for an absent name or higher-rank vector. -/
def addOffsetStep (c : SteeringController) (acc : List ℝ) (nm : String) : List ℝ :=
  match c.concepts.lookup nm with
  | some cv =>
    match cv.vector with
    | .one v =>
        List.zipWith (· + ·) acc
          (v.map (fun a => gainOf c.alpha c.beta cv.strength * a))
    | .two _ => acc
  | none => acc

/-- the total additive offset contributed by a list of active names whose
catalog entries hold rank-1 vectors (skipping, as `steer` does, names that are
absent or hold higher-rank vectors). -/
def addOffsets (c : SteeringController) (names : List String) (d : Nat) : List ℝ :=
  names.foldl (addOffsetStep c) (List.replicate d 0)

/-- an additive-strategy engine with the spec's example gains and `normalize`
off, used by the concrete scenarios. -/
def baseAdditive : SteeringController := ⟨.additive, 10, 2, false, [], []⟩

/-- example scenario 1 of the spec: unit concept `e1`, strength `1`, active. -/
def scenAdd1 : SteeringController :=
  (baseAdditive.add_concept ⟨"a", .one [1, 0], 1, []⟩).activate_concept "a" none

/-- example scenario 2 of the spec: same engine, strength overridden to `-1`. -/
def scenAdd2 : SteeringController :=
  (baseAdditive.add_concept ⟨"a", .one [1, 0], 1, []⟩).activate_concept "a" (some (-1))

/-- example scenario 3 of the spec: projection strategy, unit concept `e1`. -/
def scenProj : SteeringController :=
  ((⟨.projection, 10, 2, false, [], []⟩ : SteeringController).add_concept
    ⟨"a", .one [1, 0], 1, []⟩).activate_concept "a" none

/-- an engine holding a 1-D concept of length 2 steered against trailing
dimension 3: `np.broadcast_to` has no structurally possible broadcast. -/
def cexBroadcastCtrl : SteeringController :=
  ⟨.additive, 10, 2, false, [("bad", ⟨"bad", .one [1, 0], 1, []⟩)], ["bad"]⟩

/-- an hspace-strategy engine with `normalize` on and one active matched concept. -/
def cexHspaceCtrl : SteeringController :=
  ⟨.hspace, 10, 2, true, [("c", ⟨"c", .one [1], 1, []⟩)], ["c"]⟩

/-- an additive engine whose single active concept cancels the input `[[5]]`
exactly (gain `-beta * |strength| = -5`), with `normalize` on. -/
def cexNormCtrl : SteeringController :=
  ⟨.additive, 10, 2, true, [("c", ⟨"c", .one [1], -(5 / 2), []⟩)], ["c"]⟩

/-- an additive engine with `normalize` on used to exhibit the renormalization
formula on a nondegenerate input. -/
def wNormCtrl : SteeringController :=
  ⟨.additive, 10, 2, true, [("c", ⟨"c", .one [1], 1, []⟩)], ["c"]⟩

/-- an engine whose active list holds a rank-2 mismatched concept followed by a
matched one. -/
def wSkipCtrl : SteeringController :=
  ⟨.additive, 10, 2, false,
    [("skip2", ⟨"skip2", .two [[1, 1]], 1, []⟩), ("ok1", ⟨"ok1", .one [1], 1, []⟩)],
    ["skip2", "ok1"]⟩

/-- the same engine with the mismatched concept dropped from the active list. -/
def wSkipCtrlPruned : SteeringController :=
  ⟨.additive, 10, 2, false,
    [("skip2", ⟨"skip2", .two [[1, 1]], 1, []⟩), ("ok1", ⟨"ok1", .one [1], 1, []⟩)],
    ["ok1"]⟩

/-- a concept library pointing at a path that is absent from the filesystem,
while already holding one concept. -/
def cexLib : ConceptLibrary :=
  ⟨some "missing.pkl", [("c", ⟨"c", NArr.one [1], 1, []⟩)]⟩

/-- an inactive cross-attention applier with one configured direction. -/
def wApplier : CASteerApplier :=
  ⟨⟨10, 2, true, ["down", "mid", "up"], (0, 1000)⟩, [("v", .one [1], 1)], false⟩

/-- a latent-space editor with a configured direction but no active edits. -/
def wEditor : HSpaceEditor :=
  ⟨⟨1, true, (200, 800)⟩, [("v", .one [1], 1)], []⟩

/-! Helper lemmas. -/

theorem ok_bind {α β : Type} (a : α) (f : α → Except String β) :
    (Except.ok a : Except String α).bind f = f a := rfl

theorem error_bind {α β : Type} (e : String) (f : α → Except String β) :
    (Except.error e : Except String α).bind f = Except.error e := rfl

theorem monadBind_eq_bind {α β : Type} (x : Except String α) (f : α → Except String β) :
    x >>= f = x.bind f := rfl

theorem pure_bind_ex {α β : Type} (a : α) (f : α → Except String β) :
    (pure a : Except String α).bind f = f a := rfl

theorem zipWith_replicate_right {α β γ : Type} (g : α → β → γ) :
    ∀ (l : List α) (v : β),
      List.zipWith g l (List.replicate l.length v) = l.map (fun a => g a v) := by
  intro l v
  induction l with
  | nil => rfl
  | cons a l ih => simp [List.replicate_succ, ih]

theorem zipWith_add_replicate_zero (r : List ℝ) :
    List.zipWith (· + ·) r (List.replicate r.length (0 : ℝ)) = r := by
  rw [zipWith_replicate_right]
  simp

theorem zipWith_add_assoc_right (r acc w : List ℝ) :
    List.zipWith (· + ·) (List.zipWith (· + ·) r acc) w =
      List.zipWith (· + ·) r (List.zipWith (· + ·) acc w) := by
  induction r generalizing acc w with
  | nil => rfl
  | cons a r ih =>
    cases acc with
    | nil => rfl
    | cons b acc =>
      cases w with
      | nil => rfl
      | cons c w => simp [ih, add_assoc]

theorem seqRows_ok (f : ℝ → ℝ → ℝ) (g : List ℝ → List ℝ → List ℝ) :
    ∀ (x y : Tensor), x.length = y.length →
      (∀ r s, (r, s) ∈ x.zip y → rowBop f r s = .ok (g r s)) →
      seqRows f x y = .ok (List.zipWith g x y) := by
  intro x
  induction x with
  | nil =>
    intro y hlen _
    cases y with
    | nil => rfl
    | cons s b => simp at hlen
  | cons r a ih =>
    intro y hlen hrow
    cases y with
    | nil => simp at hlen
    | cons s b =>
      have h1 : rowBop f r s = .ok (g r s) := hrow r s (by simp)
      have h2 : seqRows f a b = .ok (List.zipWith g a b) := by
        refine ih b (by simpa using hlen) ?_
        intro r2 s2 hm
        exact hrow r2 s2 (by simp [hm])
      simp [seqRows, h1, h2, ok_bind]

theorem tbop_rows_rows (f : ℝ → ℝ → ℝ) (x y : Tensor)
    (hlen : x.length = y.length)
    (hrows : ∀ r s, (r, s) ∈ x.zip y → r.length = s.length) :
    tbop f x y = .ok (List.zipWith (fun r s => List.zipWith f r s) x y) := by
  rw [tbop, if_pos hlen]
  exact seqRows_ok f _ x y hlen (fun r s hm => by rw [rowBop, if_pos (hrows r s hm)])

theorem rowBop_col (f : ℝ → ℝ → ℝ) (r : List ℝ) (c : ℝ) :
    rowBop f r [c] = .ok (r.map (fun a => f a c)) := by
  by_cases hr1 : r.length = 1
  · obtain ⟨a, rfl⟩ := List.length_eq_one.mp hr1
    simp [rowBop]
  · rw [rowBop, if_neg (by simpa using hr1), if_neg hr1, if_pos (by simp)]
    simp

theorem rowBop_left_single (f : ℝ → ℝ → ℝ) (c : ℝ) (v : List ℝ) :
    rowBop f [c] v = .ok (v.map (f c)) := by
  by_cases hv1 : v.length = 1
  · obtain ⟨w, rfl⟩ := List.length_eq_one.mp hv1
    simp [rowBop]
  · rw [rowBop, if_neg (by simpa [eq_comm] using hv1), if_pos (by simp)]
    simp

theorem tbop_rows_onerow (f : ℝ → ℝ → ℝ) (x : Tensor) (v : List ℝ) (d : Nat)
    (hx : ∀ r ∈ x, r.length = d) (hv : v.length = d) :
    tbop f x [v] = .ok (x.map (fun r => List.zipWith f r v)) := by
  by_cases h1 : x.length = 1
  · obtain ⟨r, rfl⟩ := List.length_eq_one.mp h1
    rw [tbop, if_pos (by simp)]
    have : rowBop f r v = .ok (List.zipWith f r v) := by
      rw [rowBop, if_pos (by rw [hx r (by simp), hv])]
    simp [seqRows, this, ok_bind]
  · rw [tbop, if_neg (by simpa using h1), if_neg (by simpa using h1),
      if_pos (by simp), List.headD_cons]
    have := seqRows_ok f (fun r _ => List.zipWith f r v) x
      (List.replicate x.length v) (by simp) ?_
    · rw [this, zipWith_replicate_right]
    · intro r s hm
      have hs : s = v := List.eq_of_mem_replicate (List.of_mem_zip hm).2
      subst hs
      rw [rowBop, if_pos (by rw [hx r (List.of_mem_zip hm).1, hv])]

theorem tbop_col_onerow (f : ℝ → ℝ → ℝ) (cs : List ℝ) (v : List ℝ) :
    tbop f (cs.map (fun c => [c])) [v] = .ok (cs.map (fun c => v.map (f c))) := by
  by_cases h1 : cs.length = 1
  · obtain ⟨c, rfl⟩ := List.length_eq_one.mp h1
    rw [tbop, if_pos (by simp)]
    simp [seqRows, rowBop_left_single f c v, ok_bind]
  · rw [tbop, if_neg (by simpa using h1), if_neg (by simpa using h1),
      if_pos (by simp), List.headD_cons]
    have := seqRows_ok f (fun r _ => v.map (f (r.headD 0)))
      (cs.map (fun c => [c])) (List.replicate (cs.map (fun c => [c])).length v)
      (by simp) ?_
    · rw [this, zipWith_replicate_right]
      simp
    · intro r s hm
      have hs : s = v := List.eq_of_mem_replicate (List.of_mem_zip hm).2
      obtain ⟨c, _, rfl⟩ := List.mem_map.mp (List.of_mem_zip hm).1
      rw [hs]
      simpa using rowBop_left_single f c v

theorem tbop_rows_col (f : ℝ → ℝ → ℝ) (x : Tensor) (cs : List ℝ)
    (h : x.length = cs.length) :
    tbop f x (cs.map (fun c => [c])) =
      .ok (List.zipWith (fun r c => r.map (fun a => f a c)) x cs) := by
  rw [tbop, if_pos (by simpa using h)]
  have := seqRows_ok f (fun r s => r.map (fun a => f a (s.headD 0))) x
    (cs.map (fun c => [c])) (by simpa using h) ?_
  · rw [this, List.zipWith_map_right]
    simp
  · intro r s hm
    obtain ⟨c, _, rfl⟩ := List.mem_map.mp (List.of_mem_zip hm).2
    simpa using rowBop_col f r c

theorem sqSum_nonneg (r : List ℝ) : 0 ≤ (r.map (fun a => a ^ 2)).sum := by
  apply List.sum_nonneg
  intro a ha
  obtain ⟨b, _, rfl⟩ := List.mem_map.mp ha
  positivity

theorem rowNorm_nonneg (r : List ℝ) : 0 ≤ rowNorm r := Real.sqrt_nonneg _

theorem rowNorm_singleton (a : ℝ) : rowNorm [a] = |a| := by
  simp [rowNorm, Real.sqrt_sq_eq_abs]

theorem rowNorm_map_mul (k : ℝ) (r : List ℝ) :
    rowNorm (r.map (fun a => k * a)) = |k| * rowNorm r := by
  rw [rowNorm, rowNorm, List.map_map]
  have h1 : ((fun a => a ^ 2) ∘ fun a => k * a) = fun a => k ^ 2 * a ^ 2 := by
    funext a
    simp [mul_pow]
  rw [h1, List.sum_map_mul_left, Real.sqrt_mul (sq_nonneg k), Real.sqrt_sq_eq_abs]

theorem rowNorm_map_div (n : ℝ) (hn : 0 < n) (r : List ℝ) :
    rowNorm (r.map (fun a => a / n)) = rowNorm r / n := by
  have h1 : (fun a : ℝ => a / n) = fun a => n⁻¹ * a := by
    funext a
    rw [div_eq_inv_mul]
  rw [h1, rowNorm_map_mul, abs_of_pos (by positivity), div_eq_inv_mul]

theorem normKeep_eq_map_col (x : Tensor) :
    normKeep x = (x.map rowNorm).map (fun c => [c]) := by
  simp [normKeep, List.map_map]

theorem tadds_normKeep_eq_map_col (c : ℝ) (s : Tensor) :
    tadds c (normKeep s) = (s.map (fun r => rowNorm r + c)).map (fun b => [b]) := by
  simp [tadds, normKeep, List.map_map]

/-- the renormalization step, reduced to an explicit positionwise rescale. -/
theorem renormalize_eq (x s : Tensor) (h : s.length = x.length) :
    renormalize (normKeep x) s =
      .ok (List.zipWith (fun sr b => sr.map (fun a => a / (rowNorm sr + 1e-8) * b))
        s (x.map rowNorm)) := by
  rw [renormalize, tadds_normKeep_eq_map_col, tbop_rows_col _ s _ (by simp), ok_bind]
  have h2 : List.zipWith (fun r c => r.map (fun a => a / c)) s
      (s.map (fun r => rowNorm r + 1e-8)) =
      s.map (fun r => r.map (fun a => a / (rowNorm r + 1e-8))) := by
    rw [List.zipWith_map_right, List.zipWith_same]
  rw [h2, normKeep_eq_map_col, tbop_rows_col _ _ _ (by simpa using h),
    List.zipWith_map_left]
  have h3 : ∀ (sr : List ℝ) (b : ℝ),
      ((sr.map (fun a => a / (rowNorm sr + 1e-8))).map (fun a => a * b)) =
        sr.map (fun a => a / (rowNorm sr + 1e-8) * b) := by
    intro sr b
    simp [List.map_map, Function.comp]
  simp only [List.map_map] at h3 ⊢
  simp only [h3]

theorem foldlM_id (step : Tensor → String → Except String Tensor) :
    ∀ (l : List String), (∀ nm ∈ l, ∀ st : Tensor, step st nm = .ok st) →
      ∀ s : Tensor, l.foldlM step s = .ok s := by
  intro l
  induction l with
  | nil => intro _ s; rfl
  | cons nm l ih =>
    intro h s
    rw [List.foldlM_cons, h nm (by simp) s, monadBind_eq_bind, ok_bind]
    exact ih (fun nm2 h2 => h nm2 (by simp [h2])) s

/-- with the hspace strategy and a layer other than "mid", the per-concept loop
body leaves the accumulated tensor unchanged, provided the concept does not
trigger a broadcast error (its vector matched, or rank-2, or of length 1). -/
theorem stepConcept_hspace_offmid (c : SteeringController) (x : Tensor)
    (L : String) (nm : String) (hstrat : c.strategy = .hspace) (hL : L ≠ "mid")
    (hnm : ∀ cv, c.concepts.lookup nm = some cv → ∀ v, cv.vector = .one v →
      v.length = tLastDim x ∨ v.length = 1) :
    ∀ s : Tensor, stepConcept c x L s nm = .ok s := by
  intro s
  rw [stepConcept]
  cases hlook : c.concepts.lookup nm with
  | none => rfl
  | some cv =>
    cases hv : cv.vector with
    | one v =>
      rcases hnm cv hlook v hv with hd | h1
      · simp [hv, NArr.lastDim, hd, NArr.asTensor, ok_bind, hstrat, hL]
      · by_cases hd : v.length = tLastDim x
        · simp [hv, NArr.lastDim, hd, NArr.asTensor, ok_bind, hstrat, hL]
        · have hne : ¬(1 = tLastDim x) := by
            rw [← h1]
            exact hd
          simp [hv, NArr.lastDim, hd, broadcastTo1, h1, hne, ok_bind, hstrat, hL]
    | two m =>
      by_cases hd : (NArr.two m).lastDim = tLastDim x
      · simp [hv, hd, NArr.asTensor, ok_bind, hstrat, hL]
      · simp [hv, hd, ok_bind]

/-- with the hspace strategy and a layer other than "mid" (and no active
concept able to trigger a broadcast error), the steering loop is the identity,
so `steer` returns the input exactly when `normalize` is off and returns the
input rescaled positionwise by `‖r‖/(‖r‖ + 1e-8)` when `normalize` is on. -/
theorem steer_hspace_offmid (c : SteeringController) (x : Tensor) (L : String)
    (t : Int) (hstrat : c.strategy = .hspace) (hL : L ≠ "mid")
    (hcfg : ∀ nm ∈ c.active_concepts, ∀ cv, c.concepts.lookup nm = some cv →
      ∀ v, cv.vector = .one v → v.length = tLastDim x ∨ v.length = 1) :
    c.steerLoop x L = .ok x ∧
    (c.normalize = false → c.steer x L t = .ok x) ∧
    (c.normalize = true → c.active_concepts ≠ [] → c.steer x L t =
      .ok (x.map (fun r => r.map (fun a => a / (rowNorm r + 1e-8) * rowNorm r)))) := by
  have hloop : c.steerLoop x L = .ok x := by
    rw [SteeringController.steerLoop]
    exact foldlM_id _ c.active_concepts
      (fun nm hnm => stepConcept_hspace_offmid c x L nm hstrat hL
        (fun cv hcv => hcfg nm hnm cv hcv)) x
  refine ⟨hloop, ?_, ?_⟩
  · intro hnorm
    rw [SteeringController.steer]
    by_cases hact : c.active_concepts = []
    · rw [if_pos hact]
    · rw [if_neg hact, hloop, ok_bind, hnorm]
      simp
  · intro hnorm hact
    rw [SteeringController.steer, if_neg hact, hloop, ok_bind, hnorm, if_pos rfl,
      renormalize_eq x x rfl, List.zipWith_map_right, List.zipWith_same]

/-! Claim theorems. -/

/-- C8: if the engine's active list is empty then `steer` returns the input
unchanged, for every input tensor (including degenerate or empty shapes),
every layer name and every timestep. -/
theorem claim_C8 (c : SteeringController) (x : Tensor) (L : String) (t : Int)
    (h : c.active_concepts = []) : c.steer x L t = .ok x := by
  simp [SteeringController.steer, h]

/-- witness for C8 at a concrete engine and a ragged concrete tensor. -/
theorem claim_C8_witness :
    baseAdditive.active_concepts = [] ∧
      baseAdditive.steer [[1, 2], [3]] "up" 5 = .ok [[1, 2], [3]] :=
  ⟨rfl, claim_C8 baseAdditive [[1, 2], [3]] "up" 5 rfl⟩

/-- C10: constructing a `SteeringController` succeeds exactly when the
`default_strategy` string is one of `additive`, `projection`, `hspace`; any
other string makes the enum conversion fail. -/
theorem claim_C10 (s : String) (a b : ℝ) (n : Bool) :
    (∃ c, SteeringController.init s a b n = .ok c) ↔
      (s = "additive" ∨ s = "projection" ∨ s = "hspace") := by
  simp only [SteeringController.init, SteeringStrategy.ofValue]
  split_ifs with h1 h2 h3 <;> simp_all

/-- C7: both gated appliers return the input unchanged whenever the applier is
not active (flag off for the cross-attention applier, empty active-edit list
for the latent-space applier), or the layer is outside the cross-attention
allow-list, or the timestep lies outside the inclusive window, regardless of
the configured directions. -/
theorem claim_C7 (ap : CASteerApplier) (ed : HSpaceEditor) (x h : Tensor)
    (L : String) (t u : Int) :
    ((ap.active = false ∨ L ∉ ap.config.apply_to_layers ∨
        ¬(ap.config.timestep_range.1 ≤ t ∧ t ≤ ap.config.timestep_range.2)) →
      ap.apply_steering x L t = .ok x) ∧
    ((ed.active_edits = [] ∨
        ¬(ed.config.timestep_range.1 ≤ u ∧ u ≤ ed.config.timestep_range.2)) →
      ed.apply_edit h u = .ok h) := by
  constructor
  · rintro (hc | hc | hc) <;> simp [CASteerApplier.apply_steering, hc]
  · rintro (hc | hc) <;> simp [HSpaceEditor.apply_edit, hc]

/-- witness for C7: an inactive cross-attention applier and an editor with no
active edits both pass a concrete tensor through even though each has a
configured direction. -/
theorem claim_C7_witness :
    wApplier.apply_steering [[1]] "mid" 0 = .ok [[1]] ∧
      wEditor.apply_edit [[2]] 500 = .ok [[2]] :=
  ⟨(claim_C7 wApplier wEditor [[1]] [[2]] "mid" 0 500).1 (Or.inl rfl),
    (claim_C7 wApplier wEditor [[1]] [[2]] "mid" 0 500).2 (Or.inl rfl)⟩

theorem cexHspaceCtrl_cfg (x : Tensor) :
    ∀ nm ∈ cexHspaceCtrl.active_concepts, ∀ cv,
      cexHspaceCtrl.concepts.lookup nm = some cv →
      ∀ v, cv.vector = NArr.one v → v.length = tLastDim x ∨ v.length = 1 := by
  intro nm hnm cv hcv v hv
  right
  simp [cexHspaceCtrl] at hnm
  subst hnm
  simp [cexHspaceCtrl, List.lookup_cons] at hcv
  rw [← hcv] at hv
  simp at hv
  rw [← hv]
  rfl

/-- C2 (counterexample): an hspace engine with `normalize` on, one active
matched concept, and layer "down" (not "mid") does not return the input
unchanged: the final renormalization rescales `[[1]]` by `1/(1 + 1e-8)`. -/
theorem claim_C2_cex : cexHspaceCtrl.steer [[1]] "down" 0 ≠ .ok [[1]] := by
  have h := (steer_hspace_offmid cexHspaceCtrl [[1]] "down" 0 rfl (by simp)
    (cexHspaceCtrl_cfg [[1]])).2.2 rfl (by simp [cexHspaceCtrl])
  rw [h]
  simp [rowNorm_singleton]
  norm_num

/-- C2 (amended): with the hspace strategy and a layer other than "mid",
provided no active concept holds a rank-1 vector that neither matches the
trailing dimension nor has length 1 (such a vector makes the underlying
broadcast raise), the steering loop leaves the activations unchanged; the call
returns them exactly when `normalize` is false, and returns them rescaled
positionwise by `‖r‖ / (‖r‖ + 1e-8)`, not unchanged, when `normalize` is
true and a concept is active. -/
theorem claim_C2_amended (c : SteeringController) (x : Tensor) (L : String)
    (t : Int) (hstrat : c.strategy = .hspace) (hL : L ≠ "mid")
    (hcfg : ∀ nm ∈ c.active_concepts, ∀ cv, c.concepts.lookup nm = some cv →
      ∀ v, cv.vector = NArr.one v → v.length = tLastDim x ∨ v.length = 1) :
    c.steerLoop x L = .ok x ∧
    (c.normalize = false → c.steer x L t = .ok x) ∧
    (c.normalize = true → c.active_concepts ≠ [] → c.steer x L t =
      .ok (x.map (fun r => r.map (fun a => a / (rowNorm r + 1e-8) * rowNorm r)))) :=
  steer_hspace_offmid c x L t hstrat hL hcfg

/-- witness for the amended C2 at a concrete hspace engine and input `[[3]]`. -/
theorem claim_C2_amended_witness :
    cexHspaceCtrl.steer [[3]] "down" 7 = .ok [[(3 : ℝ) / (3 + 1e-8) * 3]] := by
  have h := (claim_C2_amended cexHspaceCtrl [[3]] "down" 7 rfl (by simp)
    (cexHspaceCtrl_cfg [[3]])).2.2 rfl (by simp [cexHspaceCtrl])
  rw [h]
  simp [rowNorm_singleton]

theorem NArr.flat_emap (f : ℝ → ℝ) (a : NArr) : (a.emap f).flat = a.flat.map f := by
  cases a with
  | one v => rfl
  | two m => simp [NArr.emap, NArr.flat]

theorem fullNorm_nonneg (a : NArr) : 0 ≤ a.fullNorm := rowNorm_nonneg _

theorem unitNormalize_of_zero (a : NArr) (h : a.fullNorm = 0) :
    unitNormalize a = a := by
  rw [unitNormalize, if_neg]
  rw [h]
  exact lt_irrefl 0

theorem fullNorm_unitNormalize (a : NArr) (h : a.fullNorm ≠ 0) :
    (unitNormalize a).fullNorm = 1 := by
  have hpos : 0 < a.fullNorm := (fullNorm_nonneg a).lt_of_ne (Ne.symm h)
  rw [unitNormalize, if_pos hpos, NArr.fullNorm, NArr.flat_emap,
    rowNorm_map_div a.fullNorm hpos a.flat]
  exact div_self h

theorem dictInsert_lookup (k : String) (v : ConceptVector) (d : ConceptDict) :
    (dictInsert k v d).lookup k = some v := by
  rw [dictInsert]
  by_cases h : (d.lookup k).isSome
  · rw [if_pos h]
    induction d with
    | nil => simp at h
    | cons p d ih =>
      by_cases hpk : p.1 = k
      · simp [hpk]
      · have h2 : (d.lookup k).isSome := by
          rw [List.lookup_cons] at h
          simpa [beq_eq_false_iff_ne.mpr (fun he => hpk he.symm)] using h
        simp only [List.map_cons, if_neg hpk]
        rw [List.lookup_cons]
        simpa [beq_eq_false_iff_ne.mpr (fun he => hpk he.symm)] using ih h2
  · rw [if_neg h]
    rw [List.lookup_append]
    have h2 : d.lookup k = none := by
      cases hl : d.lookup k with
      | none => rfl
      | some w => simp [hl] at h
    simp [h2]

/-- C3 (counterexample): `ConceptLibrary.add_concept` stores the vector
unchanged, so inserting the nonzero vector `[2, 0]` into the registry leaves a
stored vector of L2 norm 2, not 1 within 1e-6. -/
theorem claim_C3_cex :
    ((ConceptLibrary.mk none []).add_concept
        ⟨"c", NArr.one [2, 0], 1, []⟩).concepts.lookup "c" =
      some ⟨"c", NArr.one [2, 0], 1, []⟩ ∧
    (NArr.one [2, 0]).fullNorm = 2 ∧
    ¬(|(NArr.one [2, 0]).fullNorm - 1| ≤ 1e-6) := by
  have hn : (NArr.one [2, 0]).fullNorm = 2 := by
    rw [NArr.fullNorm, NArr.flat, rowNorm]
    rw [show (([(2 : ℝ), 0]).map (fun a => a ^ 2)).sum = 2 ^ 2 by norm_num]
    exact Real.sqrt_sq (by norm_num)
  refine ⟨?_, hn, ?_⟩
  · exact dictInsert_lookup "c" _ []
  · rw [hn]
    norm_num

/-- C3 (amended): `SteeringController.add_concept` stores a unit-norm copy of
any nonzero-norm vector (and stores a zero-norm vector unchanged, attempting no
division), but `ConceptLibrary.add_concept` stores every vector unchanged,
normalizing nothing. -/
theorem claim_C3_amended (ctrl : SteeringController) (lib : ConceptLibrary)
    (cv : ConceptVector) :
    (cv.vector.fullNorm ≠ 0 →
      (ctrl.add_concept cv).concepts.lookup cv.name =
        some ⟨cv.name, unitNormalize cv.vector, cv.strength, cv.metadata⟩ ∧
      (unitNormalize cv.vector).fullNorm = 1 ∧
      |(unitNormalize cv.vector).fullNorm - 1| ≤ 1e-6) ∧
    (cv.vector.fullNorm = 0 →
      (ctrl.add_concept cv).concepts.lookup cv.name =
        some ⟨cv.name, cv.vector, cv.strength, cv.metadata⟩) ∧
    (lib.add_concept cv).concepts.lookup cv.name = some cv := by
  refine ⟨?_, ?_, ?_⟩
  · intro h
    refine ⟨dictInsert_lookup _ _ _, fullNorm_unitNormalize cv.vector h, ?_⟩
    rw [fullNorm_unitNormalize cv.vector h]
    norm_num
  · intro h
    rw [SteeringController.add_concept]
    simp only [unitNormalize_of_zero cv.vector h]
    exact dictInsert_lookup _ _ _
  · exact dictInsert_lookup _ _ _

/-- witness for the amended C3: inserting `[2, 0]` through the engine stores
the unit vector `[1, 0]`; inserting the zero vector stores it unchanged; the
registry stores `[2, 0]` as is. -/
theorem claim_C3_amended_witness :
    ((baseAdditive.add_concept ⟨"c", NArr.one [2, 0], 1, []⟩).concepts.lookup "c" =
        some ⟨"c", unitNormalize (NArr.one [2, 0]), 1, []⟩ ∧
      (unitNormalize (NArr.one [2, 0])).fullNorm = 1) ∧
    (baseAdditive.add_concept ⟨"z", NArr.one [0, 0], 1, []⟩).concepts.lookup "z" =
      some ⟨"z", NArr.one [0, 0], 1, []⟩ ∧
    ((ConceptLibrary.mk none []).add_concept
        ⟨"c", NArr.one [2, 0], 1, []⟩).concepts.lookup "c" =
      some ⟨"c", NArr.one [2, 0], 1, []⟩ := by
  have h2 : (NArr.one [(2 : ℝ), 0]).fullNorm ≠ 0 := by
    rw [NArr.fullNorm, NArr.flat, rowNorm]
    rw [show (([(2 : ℝ), 0]).map (fun a => a ^ 2)).sum = 2 ^ 2 by norm_num]
    rw [Real.sqrt_sq (by norm_num)]
    norm_num
  have h0 : (NArr.one [(0 : ℝ), 0]).fullNorm = 0 := by
    rw [NArr.fullNorm, NArr.flat, rowNorm]
    norm_num
  have ha := claim_C3_amended baseAdditive (ConceptLibrary.mk none [])
    (⟨"c", NArr.one [2, 0], 1, []⟩ : ConceptVector)
  have hb := claim_C3_amended baseAdditive (ConceptLibrary.mk none [])
    (⟨"z", NArr.one [0, 0], 1, []⟩ : ConceptVector)
  exact ⟨⟨(ha.1 h2).1, (ha.1 h2).2.1⟩, hb.2.1 h0, ha.2.2⟩

/-- C9 (counterexample): a library whose backing path is absent from the
filesystem but which already holds a concept is not empty after `load()`:
`load` leaves the registry as it was. -/
theorem claim_C9_cex :
    pathExists [] "missing.pkl" = false ∧
    (cexLib.load []).concepts = [("c", ⟨"c", NArr.one [1], 1, []⟩)] ∧
    (cexLib.load []).concepts ≠ [] := by
  refine ⟨rfl, rfl, ?_⟩
  simp [cexLib, ConceptLibrary.load]

/-- C9 (amended): when the backing path does not exist on disk, `load()` raises
no error and leaves the registry exactly as it was — in particular a freshly
constructed library is (and stays) empty. -/
theorem claim_C9_amended (lib : ConceptLibrary) (fs : FileSystem)
    (h : ∀ p, lib.path = some p → fs.lookup p = none) :
    lib.load fs = lib ∧ (ConceptLibrary.init lib.path fs).concepts = [] := by
  constructor
  · cases hp : lib.path with
    | none => simp [ConceptLibrary.load, hp]
    | some p =>
      by_cases hp0 : p = ""
      · simp [ConceptLibrary.load, hp, hp0]
      · simp [ConceptLibrary.load, hp, hp0, h p hp]
  · cases hp : lib.path with
    | none => simp [ConceptLibrary.init, hp]
    | some p => simp [ConceptLibrary.init, hp, pathExists, h p hp]

/-- witness for the amended C9 at a library with one stored concept and an
empty filesystem. -/
theorem claim_C9_amended_witness :
    cexLib.load [] = cexLib ∧ (ConceptLibrary.init cexLib.path []).concepts = [] :=
  claim_C9_amended cexLib [] (fun _ _ => rfl)

theorem except_bind_congr {α β : Type} (x : Except String α)
    (f g : α → Except String β) (h : ∀ a, f a = g a) : x.bind f = x.bind g := by
  cases x <;> simp [Except.bind, h]

/-- `steer` with a nonempty active list is the loop followed by the optional
renormalization. -/
theorem steer_eq_of_loop (c : SteeringController) (x : Tensor) (L : String)
    (t : Int) (hact : c.active_concepts ≠ []) :
    c.steer x L t = (c.steerLoop x L).bind (fun steered =>
      if c.normalize then renormalize (normKeep x) steered else .ok steered) := by
  rw [SteeringController.steer, if_neg hact]

/-- C1 (counterexample): a stored 1-D direction of length 2 steered against a
tensor of trailing dimension 3 makes `np.broadcast_to` raise instead of
skipping the concept: `steer` propagates the error. -/
theorem claim_C1_cex :
    cexBroadcastCtrl.steer [[0, 0, 0]] "mid" 0 =
      .error "cannot broadcast a 1-D vector to an incompatible shape" := by
  rfl

/-- C1 (amended): when an active concept's vector has a mismatched trailing
dimension, only a higher-rank vector is skipped (contributing nothing, with
every other active concept still applied); a 1-D vector broadcasts exactly when
its length is 1, and a 1-D vector of any other length makes the underlying
broadcast raise, so `steer` returns no result at all. -/
theorem claim_C1_amended (c : SteeringController) (x : Tensor) (L : String)
    (t : Int) (nm : String) (cv : ConceptVector) (l1 l2 : List String)
    (hlook : c.concepts.lookup nm = some cv)
    (hact : c.active_concepts = l1 ++ nm :: l2)
    (hdim : cv.vector.lastDim ≠ tLastDim x) :
    (∀ m, cv.vector = NArr.two m →
      c.steerLoop x L =
        SteeringController.steerLoop
          ⟨c.strategy, c.alpha, c.beta, c.normalize, c.concepts, l1 ++ l2⟩ x L ∧
      (l1 ++ l2 ≠ [] → c.steer x L t =
        SteeringController.steer
          ⟨c.strategy, c.alpha, c.beta, c.normalize, c.concepts, l1 ++ l2⟩ x L t)) ∧
    (∀ v, cv.vector = NArr.one v → v.length = 1 →
      broadcastTo1 v x.length (tLastDim x) =
        .ok (List.replicate x.length (List.replicate (tLastDim x) (v.headD 0)))) ∧
    (∀ v, cv.vector = NArr.one v → v.length ≠ 1 →
      ∀ y, c.steer x L t ≠ .ok y) := by
  refine ⟨?_, ?_, ?_⟩
  · intro m hm
    have hd2 : (NArr.two m).lastDim ≠ tLastDim x := by
      rw [hm] at hdim
      exact hdim
    have hstep : ∀ s : Tensor, stepConcept c x L s nm = .ok s := by
      intro s
      simp [stepConcept, hlook, hm, hd2, ok_bind]
    have hloop : c.steerLoop x L =
        SteeringController.steerLoop
          ⟨c.strategy, c.alpha, c.beta, c.normalize, c.concepts, l1 ++ l2⟩ x L := by
      show (c.active_concepts).foldlM (stepConcept c x L) x =
        (l1 ++ l2).foldlM (stepConcept c x L) x
      rw [hact]
      simp only [List.foldlM_append, List.foldlM_cons, monadBind_eq_bind]
      apply except_bind_congr
      intro s
      rw [hstep s, ok_bind]
    refine ⟨hloop, ?_⟩
    intro hne
    rw [steer_eq_of_loop c x L t (by simp [hact]),
      steer_eq_of_loop _ x L t (by simpa using hne), hloop]
  · intro v hv h1
    have hne : v.length ≠ tLastDim x := by
      rw [hv] at hdim
      exact hdim
    rw [broadcastTo1, if_neg hne, if_pos h1]
  · intro v hv h1 y heq
    have hne : v.length ≠ tLastDim x := by
      rw [hv] at hdim
      exact hdim
    have hstep : ∀ s : Tensor, stepConcept c x L s nm =
        .error "cannot broadcast a 1-D vector to an incompatible shape" := by
      intro s
      simp [stepConcept, hlook, hv, NArr.lastDim, hne, broadcastTo1, h1, error_bind]
    have hloop : ∀ z, c.steerLoop x L ≠ .ok z := by
      intro z
      show (c.active_concepts).foldlM (stepConcept c x L) x ≠ .ok z
      rw [hact]
      simp only [List.foldlM_append, List.foldlM_cons, monadBind_eq_bind]
      cases hf : l1.foldlM (stepConcept c x L) x with
      | error e => simp [error_bind]
      | ok s => simp [ok_bind, hstep s, error_bind]
    rw [steer_eq_of_loop c x L t (by simp [hact])] at heq
    cases hf : c.steerLoop x L with
    | error e =>
      rw [hf] at heq
      simp [error_bind] at heq
    | ok s => exact hloop s hf

/-- witness for the amended C1: the rank-2 mismatched concept of `wSkipCtrl` is
skipped, so steering equals steering with it dropped from the active list, and
the remaining matched concept still applies (`[[2]]` becomes `[[12]]`). -/
theorem claim_C1_amended_witness :
    wSkipCtrl.steer [[2]] "mid" 0 = wSkipCtrlPruned.steer [[2]] "mid" 0 ∧
    wSkipCtrlPruned.steer [[2]] "mid" 0 = .ok [[(12 : ℝ)]] := by
  constructor
  · exact ((claim_C1_amended wSkipCtrl [[2]] "mid" 0 "skip2"
      ⟨"skip2", NArr.two [[1, 1]], 1, []⟩ [] ["ok1"] rfl rfl
      (by simp [wSkipCtrl, NArr.lastDim, tLastDim])).1 [[1, 1]] rfl).2 (by simp)
  · have hg : gainOf 10 2 1 = 10 := by
      rw [gainOf, if_pos (show (1 : ℝ) ≥ 0 by norm_num)]
      norm_num
    simp [SteeringController.steer, SteeringController.steerLoop,
      wSkipCtrlPruned, stepConcept, List.foldlM, List.lookup_cons, NArr.lastDim,
      tLastDim, NArr.asTensor, tbop, seqRows, rowBop, tsmul, hg, ok_bind,
      monadBind_eq_bind]
    norm_num
    rfl

theorem unitNormalize_of_norm_one (a : NArr) (h : a.fullNorm = 1) :
    unitNormalize a = a := by
  rw [unitNormalize, if_pos (by rw [h]; norm_num), h]
  cases a with
  | one v => simp [NArr.emap]
  | two m => simp [NArr.emap]

theorem steerLoop_additive_aux (c : SteeringController) (x : Tensor) (L : String)
    (d : Nat) (hstrat : c.strategy = .additive)
    (hx : ∀ r ∈ x, r.length = d) (hd : tLastDim x = d) :
    ∀ (l : List String) (acc : List ℝ), acc.length = d →
      (∀ nm ∈ l, ∃ cv v, c.concepts.lookup nm = some cv ∧
        cv.vector = NArr.one v ∧ v.length = d) →
      l.foldlM (stepConcept c x L) (x.map (fun r => List.zipWith (· + ·) r acc)) =
        .ok (x.map (fun r =>
          List.zipWith (· + ·) r (l.foldl (addOffsetStep c) acc))) := by
  intro l
  induction l with
  | nil =>
    intro acc _ _
    rfl
  | cons nm l ih =>
    intro acc hacc hl
    obtain ⟨cv, v, hlook, hv, hvlen⟩ := hl nm (by simp)
    have hgv : (v.map (fun a => gainOf c.alpha c.beta cv.strength * a)).length = d := by
      simpa using hvlen
    have hstep : stepConcept c x L (x.map (fun r => List.zipWith (· + ·) r acc)) nm =
        .ok (x.map (fun r => List.zipWith (· + ·) r (List.zipWith (· + ·) acc
          (v.map (fun a => gainOf c.alpha c.beta cv.strength * a))))) := by
      have hrows : ∀ r2 ∈ x.map (fun r => List.zipWith (· + ·) r acc), r2.length = d := by
        intro r2 hr2
        obtain ⟨r, hr, rfl⟩ := List.mem_map.mp hr2
        simp [List.length_zipWith, hx r hr, hacc]
      rw [stepConcept, hlook]
      simp only [hv, NArr.lastDim, hvlen, hd, ne_eq, not_true_eq_false, if_neg,
        not_false_eq_true, NArr.asTensor, ok_bind, hstrat]
      rw [show tsmul (gainOf c.alpha c.beta cv.strength) [v] =
          [v.map (fun a => gainOf c.alpha c.beta cv.strength * a)] from rfl]
      rw [tbop_rows_onerow _ _ _ d hrows hgv, List.map_map]
      apply congrArg
      apply List.map_congr_left
      intro r _
      exact (zipWith_add_assoc_right r acc _).symm ▸ rfl
    rw [List.foldlM_cons, hstep, monadBind_eq_bind, ok_bind]
    rw [ih (List.zipWith (· + ·) acc
        (v.map (fun a => gainOf c.alpha c.beta cv.strength * a)))
      (by simp [List.length_zipWith, hacc, hgv])
      (fun nm2 h2 => hl nm2 (by simp [h2]))]
    rw [List.foldl_cons]
    have : addOffsetStep c acc nm = List.zipWith (· + ·) acc
        (v.map (fun a => gainOf c.alpha c.beta cv.strength * a)) := by
      rw [addOffsetStep, hlook]
      simp [hv]
    rw [this]

/-- with the additive strategy and rank-1 matched concepts, the steering loop
adds the accumulated gain-scaled offsets to every position. -/
theorem steerLoop_additive (c : SteeringController) (x : Tensor) (L : String)
    (d : Nat) (hstrat : c.strategy = .additive)
    (hx : ∀ r ∈ x, r.length = d) (hd : tLastDim x = d)
    (hconc : ∀ nm ∈ c.active_concepts, ∃ cv v, c.concepts.lookup nm = some cv ∧
      cv.vector = NArr.one v ∧ v.length = d) :
    c.steerLoop x L =
      .ok (x.map (fun r =>
        List.zipWith (· + ·) r (addOffsets c c.active_concepts d))) := by
  have h0 : x.map (fun r => List.zipWith (· + ·) r (List.replicate d 0)) = x := by
    have := List.map_congr_left (l := x)
      (f := fun r => List.zipWith (· + ·) r (List.replicate d 0)) (g := id) ?_
    · rw [this, List.map_id]
    · intro r hr
      show List.zipWith (· + ·) r (List.replicate d 0) = r
      rw [← hx r hr, zipWith_add_replicate_zero]
  rw [SteeringController.steerLoop]
  have haux := steerLoop_additive_aux c x L d hstrat hx hd c.active_concepts
    (List.replicate d 0) (by simp) hconc
  rw [h0] at haux
  exact haux

/-- C5: with the additive strategy and `normalize` off, `steer` adds to every
position the sum over active concepts of `gain * v`, with
`gain = alpha*s` for `s ≥ 0` and `gain = -beta*|s|` for `s < 0`; in
particular the spec's two example scenarios hold: with the single active unit
concept `e1`, alpha 10, beta 2, zero input of dimension 2, strength `1` yields
`10 * e1` and strength `-1` yields `-2 * e1`. -/
theorem claim_C5 (c : SteeringController) (x : Tensor) (L : String) (t : Int)
    (d : Nat) (hstrat : c.strategy = .additive) (hnorm : c.normalize = false)
    (hx : ∀ r ∈ x, r.length = d) (hd : tLastDim x = d)
    (hconc : ∀ nm ∈ c.active_concepts, ∃ cv v, c.concepts.lookup nm = some cv ∧
      cv.vector = NArr.one v ∧ v.length = d) :
    c.steer x L t =
      .ok (x.map (fun r =>
        List.zipWith (· + ·) r (addOffsets c c.active_concepts d))) ∧
    (∀ alpha beta s : ℝ,
      gainOf alpha beta s = if s ≥ 0 then alpha * s else -(beta * |s|)) ∧
    scenAdd1.steer [[0, 0]] "mid" 0 = .ok [[10, 0]] ∧
    scenAdd2.steer [[0, 0]] "mid" 0 = .ok [[-2, 0]] := by
  have h1 : (NArr.one [(1 : ℝ), 0]).fullNorm = 1 := by
    rw [NArr.fullNorm, NArr.flat, rowNorm,
      show (([(1 : ℝ), 0]).map (fun a => a ^ 2)).sum = 1 by norm_num]
    exact Real.sqrt_one
  have hu : unitNormalize (NArr.one [(1 : ℝ), 0]) = NArr.one [1, 0] :=
    unitNormalize_of_norm_one _ h1
  have hg1 : gainOf 10 2 1 = 10 := by
    rw [gainOf, if_pos (show (1 : ℝ) ≥ 0 by norm_num)]
    norm_num
  have hg2 : gainOf 10 2 (-1) = -2 := by
    rw [gainOf, if_neg (show ¬((-1 : ℝ) ≥ 0) by norm_num)]
    norm_num
  refine ⟨?_, fun _ _ _ => rfl, ?_, ?_⟩
  · by_cases hact : c.active_concepts = []
    · rw [SteeringController.steer, if_pos hact, hact]
      have h0 : x.map (fun r =>
          List.zipWith (· + ·) r (addOffsets c [] d)) = x := by
        have := List.map_congr_left (l := x)
          (f := fun r => List.zipWith (· + ·) r (addOffsets c [] d)) (g := id) ?_
        · rw [this, List.map_id]
        · intro r hr
          show List.zipWith (· + ·) r (addOffsets c [] d) = r
          rw [addOffsets, List.foldl_nil, ← hx r hr, zipWith_add_replicate_zero]
      rw [h0]
    · rw [steer_eq_of_loop c x L t hact,
        steerLoop_additive c x L d hstrat hx hd hconc, ok_bind, hnorm]
      simp
  · have hsc : scenAdd1 = ⟨.additive, 10, 2, false,
        [("a", ⟨"a", NArr.one [1, 0], 1, []⟩)], ["a"]⟩ := by
      simp [scenAdd1, baseAdditive, SteeringController.add_concept, dictInsert,
        SteeringController.activate_concept, hu]
    rw [hsc]
    simp [SteeringController.steer, SteeringController.steerLoop, stepConcept,
      List.foldlM, List.lookup_cons, NArr.lastDim, tLastDim, NArr.asTensor,
      tbop, seqRows, rowBop, tsmul, hg1, ok_bind, monadBind_eq_bind]
    rfl
  · have hsc : scenAdd2 = ⟨.additive, 10, 2, false,
        [("a", ⟨"a", NArr.one [1, 0], -1, []⟩)], ["a"]⟩ := by
      simp [scenAdd2, baseAdditive, SteeringController.add_concept, dictInsert,
        SteeringController.activate_concept, setStrength, hu]
    rw [hsc]
    simp [SteeringController.steer, SteeringController.steerLoop, stepConcept,
      List.foldlM, List.lookup_cons, NArr.lastDim, tLastDim, NArr.asTensor,
      tbop, seqRows, rowBop, tsmul, hg2, ok_bind, monadBind_eq_bind]
    rfl

/-- witness for C5 at a concrete engine with one active matched concept. -/
theorem claim_C5_witness : wSkipCtrlPruned.steer [[3]] "mid" 0 = .ok [[(13 : ℝ)]] := by
  have h := (claim_C5 wSkipCtrlPruned [[3]] "mid" 0 1 rfl rfl
    (by intro r hr; simp at hr; simp [hr])
    rfl
    (by
      intro nm hnm
      simp [wSkipCtrlPruned] at hnm
      subst hnm
      exact ⟨⟨"ok1", NArr.one [1], 1, []⟩, [1], rfl, rfl, rfl⟩)).1
  rw [h]
  have hg1 : gainOf 10 2 1 = 10 := by
    rw [gainOf, if_pos (show (1 : ℝ) ≥ 0 by norm_num)]
    norm_num
  simp [addOffsets, addOffsetStep, wSkipCtrlPruned, List.lookup_cons, hg1]
  norm_num

/-- the projection-strategy loop body on a matched rank-1 concept: remove the
component of each position along `v` (dot along the trailing axis), then add
`alpha * strength * v`. -/
theorem stepConcept_projection (c : SteeringController) (x : Tensor) (L : String)
    (nm : String) (cv : ConceptVector) (v : List ℝ) (d : Nat)
    (hstrat : c.strategy = .projection)
    (hlook : c.concepts.lookup nm = some cv) (hv : cv.vector = NArr.one v)
    (hvlen : v.length = d) (hd : tLastDim x = d)
    (s : Tensor) (hs : ∀ r ∈ s, r.length = d) :
    stepConcept c x L s nm = .ok (s.map (fun r =>
      List.zipWith (· + ·)
        (List.zipWith (· - ·) r (v.map (fun a => dot r v * a)))
        (v.map (fun a => c.alpha * cv.strength * a)))) := by
  rw [stepConcept, hlook]
  simp only [hv, NArr.lastDim, hvlen, hd, ne_eq, not_true_eq_false, if_neg,
    not_false_eq_true, NArr.asTensor, ok_bind, hstrat]
  rw [tbop_rows_onerow _ s v d hs hvlen, ok_bind]
  rw [show sumKeep (s.map (fun r => List.zipWith (· * ·) r v)) =
      (s.map (fun r => dot r v)).map (fun b => [b]) from by
    simp [sumKeep, dot, List.map_map]]
  rw [tbop_col_onerow, ok_bind]
  rw [show (s.map (fun r => dot r v)).map (fun c2 => v.map (fun a => c2 * a)) =
      s.map (fun r => v.map (fun a => dot r v * a)) from by
    rw [List.map_map]
    rfl]
  have hlen2 : s.length = (s.map (fun r => v.map (fun a => dot r v * a))).length := by
    simp
  have hrows2 : ∀ r s2, (r, s2) ∈ s.zip (s.map (fun r => v.map (fun a => dot r v * a))) →
      r.length = s2.length := by
    intro r s2 hm
    have h1 := (List.of_mem_zip hm).1
    have h2 := (List.of_mem_zip hm).2
    obtain ⟨r2, _, rfl⟩ := List.mem_map.mp h2
    simp [hs r h1, hvlen]
  rw [tbop_rows_rows _ s _ hlen2 hrows2, ok_bind, List.zipWith_map_right,
    List.zipWith_same]
  rw [show tsmul (c.alpha * cv.strength) [v] =
      [v.map (fun a => c.alpha * cv.strength * a)] from rfl]
  have hsub : ∀ r2 ∈ s.map (fun r => List.zipWith (· - ·) r
      (v.map (fun a => dot r v * a))), r2.length = d := by
    intro r2 hr2
    obtain ⟨r, hr, rfl⟩ := List.mem_map.mp hr2
    simp [List.length_zipWith, hs r hr, hvlen]
  rw [tbop_rows_onerow _ _ _ d hsub (by simpa using hvlen), List.map_map]
  rfl

/-- C6: with the projection strategy and a single active matched rank-1
concept, `steer` (before renormalization, i.e. with `normalize` off) removes
each position's component along `v` and then adds `alpha * strength * v`; in
particular the spec's scenario 3 holds: input `5 * e1` with unit concept `e1`,
alpha 10, strength 1 yields exactly `10 * e1`. -/
theorem claim_C6 (c : SteeringController) (x : Tensor) (L : String) (t : Int)
    (nm : String) (cv : ConceptVector) (v : List ℝ) (d : Nat)
    (hstrat : c.strategy = .projection)
    (hlook : c.concepts.lookup nm = some cv) (hv : cv.vector = NArr.one v)
    (hvlen : v.length = d) (hd : tLastDim x = d)
    (hx : ∀ r ∈ x, r.length = d)
    (hact : c.active_concepts = [nm]) (hnorm : c.normalize = false) :
    c.steer x L t = .ok (x.map (fun r =>
      List.zipWith (· + ·)
        (List.zipWith (· - ·) r (v.map (fun a => dot r v * a)))
        (v.map (fun a => c.alpha * cv.strength * a)))) ∧
    scenProj.steer [[5, 0]] "mid" 0 = .ok [[10, 0]] := by
  constructor
  · rw [steer_eq_of_loop c x L t (by simp [hact]), SteeringController.steerLoop,
      hact, List.foldlM_cons,
      stepConcept_projection c x L nm cv v d hstrat hlook hv hvlen hd x hx,
      monadBind_eq_bind, ok_bind, List.foldlM_nil, pure_bind_ex, hnorm]
    simp
  · have h1 : (NArr.one [(1 : ℝ), 0]).fullNorm = 1 := by
      rw [NArr.fullNorm, NArr.flat, rowNorm,
        show (([(1 : ℝ), 0]).map (fun a => a ^ 2)).sum = 1 by norm_num]
      exact Real.sqrt_one
    have hu : unitNormalize (NArr.one [(1 : ℝ), 0]) = NArr.one [1, 0] :=
      unitNormalize_of_norm_one _ h1
    have hsc : scenProj = ⟨.projection, 10, 2, false,
        [("a", ⟨"a", NArr.one [1, 0], 1, []⟩)], ["a"]⟩ := by
      simp [scenProj, SteeringController.add_concept, dictInsert,
        SteeringController.activate_concept, hu]
    rw [hsc]
    simp [SteeringController.steer, SteeringController.steerLoop, stepConcept,
      List.foldlM, List.lookup_cons, NArr.lastDim, tLastDim, NArr.asTensor,
      tbop, seqRows, rowBop, tsmul, sumKeep, ok_bind, monadBind_eq_bind]
    rfl

/-- witness for C6: the projection transform applied through `steer` on input
`[[2, 3]]` with unit direction `e1` replaces the aligned component: the result
is `[[10, 3]]`. -/
theorem claim_C6_witness : scenProj.steer [[2, 3]] "up" 1 = .ok [[(10 : ℝ), 3]] := by
  have h1 : (NArr.one [(1 : ℝ), 0]).fullNorm = 1 := by
    rw [NArr.fullNorm, NArr.flat, rowNorm,
      show (([(1 : ℝ), 0]).map (fun a => a ^ 2)).sum = 1 by norm_num]
    exact Real.sqrt_one
  have hu : unitNormalize (NArr.one [(1 : ℝ), 0]) = NArr.one [1, 0] :=
    unitNormalize_of_norm_one _ h1
  have hsc : scenProj = ⟨.projection, 10, 2, false,
      [("a", ⟨"a", NArr.one [1, 0], 1, []⟩)], ["a"]⟩ := by
    simp [scenProj, SteeringController.add_concept, dictInsert,
      SteeringController.activate_concept, hu]
  rw [hsc]
  have h := (claim_C6 ⟨.projection, 10, 2, false,
      [("a", ⟨"a", NArr.one [1, 0], 1, []⟩)], ["a"]⟩ [[2, 3]] "up" 1 "a"
      ⟨"a", NArr.one [1, 0], 1, []⟩ [1, 0] 2 rfl rfl rfl rfl rfl
      (by
        intro r hr
        simp at hr
        simp [hr])
      rfl rfl).1
  rw [h]
  simp [dot]

/-- C4 (counterexample): with `normalize` on, an active concept whose gain
exactly cancels the input position (gain `-beta * 2.5 = -5` against input
`[[5]]`) drives the accumulated tensor to zero, and the renormalized output has
last-axis norm 0 while the input has norm 5 — off by far more than 1e-5 at a
position where the input is not all-zero. -/
theorem claim_C4_cex :
    cexNormCtrl.steer [[5]] "mid" 0 = .ok [[0]] ∧
    rowNorm [(5 : ℝ)] = 5 ∧ rowNorm [(0 : ℝ)] = 0 ∧
    ¬(|rowNorm [(0 : ℝ)] - rowNorm [(5 : ℝ)]| ≤ 1e-5) ∧
    rowNorm [(5 : ℝ)] ≠ 0 := by
  have hg : gainOf 10 2 (-(5 / 2)) = -5 := by
    rw [gainOf, if_neg (show ¬((-(5 / 2) : ℝ) ≥ 0) by norm_num)]
    rw [show |(-(5 / 2) : ℝ)| = 5 / 2 from by
      rw [abs_neg, abs_of_pos]
      norm_num]
    norm_num
  have h5 : rowNorm [(5 : ℝ)] = 5 := by
    rw [rowNorm_singleton]
    norm_num
  have h0 : rowNorm [(0 : ℝ)] = 0 := by
    rw [rowNorm_singleton]
    norm_num
  have hloop : cexNormCtrl.steerLoop [[5]] "mid" = .ok [[(0 : ℝ)]] := by
    simp [SteeringController.steerLoop, cexNormCtrl, stepConcept, List.foldlM,
      List.lookup_cons, NArr.lastDim, tLastDim, NArr.asTensor, tbop, seqRows,
      rowBop, tsmul, hg, ok_bind, monadBind_eq_bind]
    rfl
  refine ⟨?_, h5, h0, ?_, ?_⟩
  · rw [steer_eq_of_loop _ _ _ _ (by simp [cexNormCtrl]), hloop, ok_bind,
      show cexNormCtrl.normalize = true from rfl, if_pos rfl,
      renormalize_eq [[5]] [[0]] rfl]
    simp [h0, h5]
  · rw [h0, h5]
    norm_num
  · rw [h5]
    norm_num

/-- C4 (amended): with `normalize` on, the output position equals the
accumulated position rescaled by `‖x_i‖ / (‖s_i‖ + 1e-8)`, so its last-axis
norm is `‖x_i‖ · ‖s_i‖/(‖s_i‖ + 1e-8)`: it equals `‖x_i‖` within 1e-5
whenever `‖x_i‖ ≤ 1000 · ‖s_i‖` (in particular whenever the accumulated
tensor is not driven too close to zero), but not in general — the degenerate
positions are those where the accumulated steered tensor is small, not only
those where the input is all-zero. -/
theorem claim_C4_amended (c : SteeringController) (x s : Tensor) (L : String)
    (t : Int) (hnorm : c.normalize = true) (hact : c.active_concepts ≠ [])
    (hloop : c.steerLoop x L = .ok s) (hlen : s.length = x.length) :
    c.steer x L t = .ok (List.zipWith
      (fun sr b => sr.map (fun a => a / (rowNorm sr + 1e-8) * b)) s (x.map rowNorm)) ∧
    (∀ (i : Nat) (his : i < s.length) (hix : i < x.length),
      rowNorm ((s.get ⟨i, his⟩).map (fun a =>
          a / (rowNorm (s.get ⟨i, his⟩) + 1e-8) * rowNorm (x.get ⟨i, hix⟩))) =
        rowNorm (x.get ⟨i, hix⟩) *
          (rowNorm (s.get ⟨i, his⟩) / (rowNorm (s.get ⟨i, his⟩) + 1e-8)) ∧
      (rowNorm (x.get ⟨i, hix⟩) ≤ 1000 * rowNorm (s.get ⟨i, his⟩) →
        |rowNorm (x.get ⟨i, hix⟩) *
            (rowNorm (s.get ⟨i, his⟩) / (rowNorm (s.get ⟨i, his⟩) + 1e-8)) -
          rowNorm (x.get ⟨i, hix⟩)| ≤ 1e-5)) := by
  constructor
  · rw [steer_eq_of_loop c x L t hact, hloop, ok_bind, hnorm, if_pos rfl,
      renormalize_eq x s hlen]
  · intro i his hix
    set cn := rowNorm (s.get ⟨i, his⟩) with hcn
    set b := rowNorm (x.get ⟨i, hix⟩) with hb
    have hcn0 : 0 ≤ cn := rowNorm_nonneg _
    have hb0 : 0 ≤ b := rowNorm_nonneg _
    have hden : 0 < cn + 1e-8 := by positivity
    constructor
    · rw [show (fun a : ℝ => a / (cn + 1e-8) * b) =
          fun a => (b / (cn + 1e-8)) * a from by
        funext a
        ring]
      rw [rowNorm_map_mul, abs_of_nonneg (by positivity), ← hcn]
      ring
    · intro hble
      have h1 : b * (cn / (cn + 1e-8)) - b = -(b * 1e-8 / (cn + 1e-8)) := by
        field_simp
        ring
      rw [h1, abs_neg, abs_of_nonneg (by positivity)]
      have h2 : b * 1e-8 / (cn + 1e-8) ≤ 1000 * cn * 1e-8 / (cn + 1e-8) :=
        (div_le_div_iff_of_pos_right hden).mpr
          (mul_le_mul_of_nonneg_right hble (by norm_num))
      calc b * 1e-8 / (cn + 1e-8) ≤ 1000 * cn * 1e-8 / (cn + 1e-8) := h2
        _ = 1000 * 1e-8 * (cn / (cn + 1e-8)) := by ring
        _ ≤ 1000 * 1e-8 * 1 := by
            apply mul_le_mul_of_nonneg_left ?_ (by norm_num)
            rw [div_le_one hden]
            linarith
        _ ≤ 1e-5 := by norm_num

/-- witness for the amended C4: an additive engine with `normalize` on maps
`[[3]]` (accumulated to `[[13]]`) to `[[13/(13+1e-8)*3]]`, and the rescaled
norm stays within 1e-5 of the input norm because `3 ≤ 1000 * 13`. -/
theorem claim_C4_amended_witness :
    wNormCtrl.steer [[3]] "mid" 0 = .ok [[(13 : ℝ) / (13 + 1e-8) * 3]] ∧
    |(3 : ℝ) * (13 / (13 + 1e-8)) - 3| ≤ 1e-5 := by
  have hg : gainOf 10 2 1 = 10 := by
    rw [gainOf, if_pos (show (1 : ℝ) ≥ 0 by norm_num)]
    norm_num
  have hloop : wNormCtrl.steerLoop [[3]] "mid" = .ok [[(13 : ℝ)]] := by
    simp [SteeringController.steerLoop, wNormCtrl, stepConcept, List.foldlM,
      List.lookup_cons, NArr.lastDim, tLastDim, NArr.asTensor, tbop, seqRows,
      rowBop, tsmul, hg, ok_bind, monadBind_eq_bind]
    norm_num
    rfl
  have h := claim_C4_amended wNormCtrl [[3]] [[13]] "mid" 0 rfl
    (by simp [wNormCtrl]) hloop rfl
  have ha13 : rowNorm [(13 : ℝ)] = 13 := by
    rw [rowNorm_singleton]
    norm_num
  have ha3 : rowNorm [(3 : ℝ)] = 3 := by
    rw [rowNorm_singleton]
    norm_num
  constructor
  · rw [h.1]
    simp [ha13, ha3]
  · have h2 := (h.2 0 (by norm_num) (by norm_num)).2
    simp only [List.get] at h2
    rw [ha13, ha3] at h2
    exact h2 (by norm_num)

end AIG
